import Mathlib

/-!
Verification of the PaiConv point-cloud model (`model.py`).

This file gives a shallow embedding, over exact real arithmetic, of the
numeric core of `model.py`:

* `knn` (pairwise negated squared distances + top-k selection),
* `fibonacci_sphere` (kernel anchor generator),
* `PaiIndexMatrix.forward` (gather, relative positions, anchor projection,
  self bias, negative clipping, and the `topkmax` normalize-square-renormalize-
  threshold pipeline),
* `PaiConv.forward` and `PaiNet.forward` (aggregation layers and the network
  assembler, with batch norm in inference form using stored statistics and
  dropout determinized by an explicit mask argument, which is the standard
  semantics of `nn.Dropout`: in training mode each kept entry is scaled by
  `1/(1-p)`, in eval mode the layer is the identity).

Tensors are embedded as functions out of `Fin`; a `(bsize*num_pts, k, m)`
tensor becomes, for each point, a function `Fin k → Fin m → ℝ`.  Point clouds
are indexed point-major (`Fin n → Fin 3 → ℝ`); the `(batch, 3, num_points)`
layout of the source is recovered by transposition where noted.  `torch.topk`
leaves the order of tied values unspecified; the embedding fixes the
deterministic refinement that prefers the earlier index on ties.
-/

namespace PaiModel

/-- The `1e-6` stabilizer used in `PaiIndexMatrix.topkmax`. -/
noncomputable def eps : ℝ := 1 / 1000000

/-- The default `1e-5` epsilon of `nn.BatchNorm1d`. -/
noncomputable def bnEps : ℝ := 1 / 100000

/-! ## Geometric neighbor indexer (`knn`, model.py lines 33-39) -/

/-- `torch.sum(x**2, dim=1)` for a single 3D point: its squared norm. -/
def sqNorm3 (v : Fin 3 → ℝ) : ℝ := ∑ d, v d ^ 2

/-- Dot product of two 3D points, one entry of `torch.matmul(x^T, x)`. -/
def inner3 (a b : Fin 3 → ℝ) : ℝ := ∑ d, a d * b d

/-- One entry of `pairwise_distance = -xx - inner - xx^T` where
`inner = -2 x^T x`: the negated squared Euclidean distance. -/
def pairwiseDistance {n : ℕ} (x : Fin n → Fin 3 → ℝ) (p q : Fin n) : ℝ :=
  -sqNorm3 (x p) - (-2 * inner3 (x p) (x q)) - sqNorm3 (x q)

/-- Squared Euclidean distance between points `p` and `q` of a cloud. -/
def sqDist {n : ℕ} (x : Fin n → Fin 3 → ℝ) (p q : Fin n) : ℝ :=
  ∑ d, (x p d - x q d) ^ 2

/-- First index of a list attaining the maximal value of `v`
(`none` on the empty list).  On ties the earlier index wins, the
deterministic refinement of `torch.topk`'s unspecified tie order. -/
noncomputable def argmaxAux {n : ℕ} (v : Fin n → ℝ) : List (Fin n) → Option (Fin n)
  | [] => none
  | i :: is =>
    match argmaxAux v is with
    | none => some i
    | some j => if v i < v j then some j else some i

/-- Top-`k` selection from a pool of candidate indices: repeatedly pick the
remaining index with the largest value.  Embeds `torch.topk(·, k)[1]`. -/
noncomputable def topkSelect {n : ℕ} (v : Fin n → ℝ) : ℕ → List (Fin n) → List (Fin n)
  | 0, _ => []
  | k + 1, rem =>
    match argmaxAux v rem with
    | none => []
    | some j => j :: topkSelect v k (rem.erase j)

/-- `knn(x, k)` for one point `p` of one cloud: the indices of the `k`
largest entries of `pairwise_distance[p]` (= the `k` nearest neighbors). -/
noncomputable def knnList {n : ℕ} (x : Fin n → Fin 3 → ℝ) (k : ℕ) (p : Fin n) : List (Fin n) :=
  topkSelect (pairwiseDistance x p) k (List.finRange n)

/-- The neighbor index as a function: `j`-th neighbor of point `p`
(defaulting to `p` itself out of range, which never occurs when `k ≤ n`). -/
noncomputable def knnFun {n : ℕ} (x : Fin n → Fin 3 → ℝ) (k : ℕ) (p : Fin n) (j : Fin k) : Fin n :=
  (knnList x k p).getD j.val p

/-- `idx + idx_base` of the callers of `knn`: the per-batch-offset flattened
neighbor indices of point `p` in batch item `b` (offset `b * num_pts`). -/
noncomputable def flatSpiralsIndex {B n : ℕ} (x : Fin B → Fin n → Fin 3 → ℝ) (k : ℕ)
    (b : Fin B) (p : Fin n) : List ℕ :=
  (knnList (x b) k p).map (fun i => i.val + b.val * n)

/-! ## Kernel-point generator (`fibonacci_sphere`, model.py lines 49-69) -/

/-- Python's float `%` for a nonnegative modulus: `a - b * ⌊a / b⌋`. -/
noncomputable def fmodReal (a b : ℝ) : ℝ := a - b * ⌊a / b⌋

/-- `fibonacci_sphere(samples, randomize)`.  The single draw
`random.random()` of the source is passed explicitly as `u`; when
`randomize` is false the source fixes `rnd = 1.` and never consults the
random generator. -/
noncomputable def fibonacci_sphere (samples : ℕ) (randomize : Bool) (u : ℝ) :
    List (ℝ × ℝ × ℝ) :=
  let rnd : ℝ := if randomize then u * samples else 1
  let offset : ℝ := 2 / samples
  let increment : ℝ := Real.pi * (3 - Real.sqrt 5)
  (0, 0, 0) :: (List.range (samples - 1)).map (fun (i : ℕ) =>
    let y : ℝ := ((i : ℝ) * offset - 1) + offset / 2
    let r : ℝ := Real.sqrt (1 - y ^ 2)
    let phi : ℝ := fmodReal ((i : ℝ) + rnd) samples * increment
    (Real.cos phi * r, y, Real.sin phi * r))

/-- `self.kernels`: anchor `a` of the `m` kernel points, i.e. column `a` of
the transposed `fibonacci_sphere(kernel_size)` tensor. -/
noncomputable def kernelPoint (m : ℕ) (a : ℕ) : ℝ × ℝ × ℝ :=
  (fibonacci_sphere m false 0).getD a (0, 0, 0)

/-! ## Soft assignment builder (`PaiIndexMatrix`, model.py lines 193-269) -/

/-- Dot product of a relative position row with a kernel anchor: one entry of
`torch.matmul(x_relative, self.kernels)`. -/
def dotAnchor (v : Fin 3 → ℝ) (p : ℝ × ℝ × ℝ) : ℝ :=
  v 0 * p.1 + v 1 * p.2.1 + v 2 * p.2.2

/-- `self.one_padding`: zero except entry `(0,0) = 1`. -/
def onePadding (k m : ℕ) (i : Fin k) (a : Fin m) : ℝ :=
  if i.val = 0 ∧ a.val = 0 then 1 else 0

/-- `spirals`: the gathered absolute position of neighbor `j` of point `p`. -/
noncomputable def spirals {n : ℕ} (x : Fin n → Fin 3 → ℝ) (k : ℕ) (p : Fin n) (j : Fin k) :
    Fin 3 → ℝ :=
  x (knnFun x k p j)

/-- `spirals[:, 0:1, :]`: the gathered center position of point `p`. -/
noncomputable def centerPt {n : ℕ} (x : Fin n → Fin 3 → ℝ) (k : ℕ) (p : Fin n) : Fin 3 → ℝ :=
  x ((knnList x k p).getD 0 p)

/-- Raw affinity: `matmul(x_relative, kernels) + one_padding` at `(i, a)`. -/
noncomputable def rawPermatrix {n : ℕ} (x : Fin n → Fin 3 → ℝ) (k m : ℕ)
    (p : Fin n) (i : Fin k) (a : Fin m) : ℝ :=
  dotAnchor (fun d => spirals x k p i d - centerPt x k p d) (kernelPoint m a.val)
    + onePadding k m i a

/-- `torch.where(permatrix > 0, permatrix, 0)`: negative clipping. -/
noncomputable def clippedPermatrix {n : ℕ} (x : Fin n → Fin 3 → ℝ) (k m : ℕ)
    (p : Fin n) (i : Fin k) (a : Fin m) : ℝ :=
  if 0 < rawPermatrix x k m p i a then rawPermatrix x k m p i a else 0

/-- `permatrix / (sum(permatrix, dim=1) + 1e-6)`: divide each entry by its
column sum (the sum over the `k` neighbor axis) plus epsilon. -/
noncomputable def colNormalize {k m : ℕ} (A : Fin k → Fin m → ℝ) :
    Fin k → Fin m → ℝ :=
  fun i a => A i a / ((∑ i', A i' a) + eps)

/-- `PaiIndexMatrix.topkmax`: column-normalize, square entrywise,
column-normalize again, then zero every entry not exceeding `0.1`. -/
noncomputable def topkmax {k m : ℕ} (A : Fin k → Fin m → ℝ) :
    Fin k → Fin m → ℝ :=
  let B := colNormalize A
  let C := colNormalize (fun i a => B i a * B i a)
  fun i a => if 1 / 10 < C i a then C i a else 0

/-- The assignment matrix of point `p` returned by
`PaiIndexMatrix.forward`. -/
noncomputable def paiPermatrix {n : ℕ} (x : Fin n → Fin 3 → ℝ) (k m : ℕ)
    (p : Fin n) : Fin k → Fin m → ℝ :=
  topkmax (clippedPermatrix x k m p)

/-- The exact value the pipeline assigns to the self entry `(0,0)`:
with `a = 1/(1+ε)`, it is `a² / (a² + ε)` (strictly below 1). -/
noncomputable def selfWeight : ℝ :=
  (1 / (1 + eps) * (1 / (1 + eps))) / (1 / (1 + eps) * (1 / (1 + eps)) + eps)

/-! ## Basic facts about `topkmax` -/

lemma colNormalize_zero {k m : ℕ} (A : Fin k → Fin m → ℝ) (i : Fin k) (a : Fin m)
    (h : A i a = 0) : colNormalize A i a = 0 := by
  simp [colNormalize, h]

lemma topkmax_of_zero {k m : ℕ} (A : Fin k → Fin m → ℝ) (i : Fin k) (a : Fin m)
    (h : A i a = 0) : topkmax A i a = 0 := by
  have h1 : colNormalize A i a = 0 := colNormalize_zero A i a h
  have h2 : colNormalize (fun i' a' => colNormalize A i' a' * colNormalize A i' a') i a = 0 := by
    apply colNormalize_zero
    simp [h1]
  simp only [topkmax, h2]
  norm_num

lemma topkmax_nonneg {k m : ℕ} (A : Fin k → Fin m → ℝ) (i : Fin k) (a : Fin m) :
    0 ≤ topkmax A i a := by
  simp only [topkmax]
  split
  · rename_i h
    calc (0:ℝ) ≤ 1 / 10 := by norm_num
    _ ≤ _ := le_of_lt h
  · exact le_refl 0

/-- Each entry after the second normalization is a square divided by
(the column sum of squares) + ε, hence at most 1. -/
lemma colNormalize_sq_le_one {k m : ℕ} (B : Fin k → Fin m → ℝ) (i : Fin k) (a : Fin m) :
    colNormalize (fun i' a' => B i' a' * B i' a') i a ≤ 1 := by
  simp only [colNormalize]
  have hterm : (0:ℝ) ≤ B i a * B i a := mul_self_nonneg _
  have hsum : (0:ℝ) ≤ ∑ i', B i' a * B i' a :=
    Finset.sum_nonneg (fun i' _ => mul_self_nonneg _)
  have hle : B i a * B i a ≤ ∑ i', B i' a * B i' a :=
    Finset.single_le_sum (f := fun i' => B i' a * B i' a)
      (fun i' _ => mul_self_nonneg _) (Finset.mem_univ i)
  have hpos : (0:ℝ) < (∑ i', B i' a * B i' a) + eps := by
    have : (0:ℝ) < eps := by norm_num [eps]
    linarith
  rw [div_le_one hpos]
  have : (0:ℝ) < eps := by norm_num [eps]
  linarith

lemma topkmax_le_one {k m : ℕ} (A : Fin k → Fin m → ℝ) (i : Fin k) (a : Fin m) :
    topkmax A i a ≤ 1 := by
  simp only [topkmax]
  split
  · exact colNormalize_sq_le_one _ i a
  · norm_num

lemma topkmax_retained {k m : ℕ} (A : Fin k → Fin m → ℝ) (i : Fin k) (a : Fin m)
    (h : topkmax A i a ≠ 0) : 1 / 10 < topkmax A i a := by
  simp only [topkmax] at h ⊢
  split at h
  · rename_i hc
    rwa [if_pos hc]
  · exact absurd rfl h

/-- A whole output column of `topkmax` sums to at most 1: each retained
entry is at most the renormalized value, and those sum to `S/(S+ε) ≤ 1`. -/
lemma topkmax_colsum_le_one {k m : ℕ} (A : Fin k → Fin m → ℝ) (a : Fin m) :
    ∑ i, topkmax A i a ≤ 1 := by
  set B := colNormalize A with hB
  have hsum : (0:ℝ) ≤ ∑ i', B i' a * B i' a :=
    Finset.sum_nonneg (fun i' _ => mul_self_nonneg _)
  have hpos : (0:ℝ) < (∑ i', B i' a * B i' a) + eps := by
    have : (0:ℝ) < eps := by norm_num [eps]
    linarith
  have hentry : ∀ i : Fin k, topkmax A i a ≤
      colNormalize (fun i' a' => B i' a' * B i' a') i a := by
    intro i
    simp only [topkmax, ← hB]
    split
    · exact le_refl _
    · simp only [colNormalize]
      exact div_nonneg (mul_self_nonneg _) (le_of_lt hpos)
  calc ∑ i, topkmax A i a
      ≤ ∑ i, colNormalize (fun i' a' => B i' a' * B i' a') i a :=
        Finset.sum_le_sum (fun i _ => hentry i)
    _ = (∑ i, B i a * B i a) / ((∑ i', B i' a * B i' a) + eps) := by
        simp only [colNormalize]
        rw [← Finset.sum_div]
    _ ≤ 1 := by
        rw [div_le_one hpos]
        have : (0:ℝ) < eps := by norm_num [eps]
        linarith

/-! ## Claim C2 -/

/-- C2: for every non-negative input matrix, after the `topkmax` pipeline
(divide by column sum plus ε, square, divide by column sum plus ε again,
threshold at 0.1) every retained non-zero entry lies in `[0.1, 1]`, and
entries that are exactly 0 in the input stay exactly 0. -/
theorem topkmax_retained_bounds_and_zero {k m : ℕ} (A : Fin k → Fin m → ℝ)
    (hA : ∀ i a, 0 ≤ A i a) : ∀ i a,
    (topkmax A i a ≠ 0 → 1 / 10 ≤ topkmax A i a ∧ topkmax A i a ≤ 1) ∧
    (A i a = 0 → topkmax A i a = 0) := by
  intro i a
  refine ⟨fun h => ⟨le_of_lt (topkmax_retained A i a h), topkmax_le_one A i a⟩,
    fun h => topkmax_of_zero A i a h⟩

/-- Witness for C2 at the constant-one 1×1 matrix. -/
theorem topkmax_retained_bounds_and_zero_witness :
    (∀ i a : Fin 1, (0:ℝ) ≤ (fun _ _ => (1:ℝ)) i a) ∧
    (∀ i a : Fin 1,
      (topkmax (fun _ _ => (1:ℝ)) i a ≠ 0 →
        1 / 10 ≤ topkmax (fun _ _ => (1:ℝ)) i a ∧ topkmax (fun _ _ => (1:ℝ)) i a ≤ 1) ∧
      ((fun _ _ => (1:ℝ)) i a = 0 → topkmax (fun _ _ => (1:ℝ)) i a = 0)) :=
  ⟨fun _ _ => zero_le_one,
   topkmax_retained_bounds_and_zero (fun _ _ => (1:ℝ)) (fun _ _ => zero_le_one)⟩

/-! ## Claims C6 and C10: the kernel-point generator -/

/-- C6: for every `kernelSize ≥ 1`, `fibonacci_sphere(kernelSize, randomize=False)`
returns exactly `kernelSize` 3D points, element 0 is the origin, and two calls
(i.e. any two values of the random draw, which is not consulted) give
identical output. -/
theorem fibonacci_sphere_count_origin_deterministic (s : ℕ) (hs : 1 ≤ s) :
    (∀ u : ℝ, (fibonacci_sphere s false u).length = s) ∧
    (∀ u : ℝ, (fibonacci_sphere s false u).head? = some (0, 0, 0)) ∧
    (∀ u u' : ℝ, fibonacci_sphere s false u = fibonacci_sphere s false u') := by
  refine ⟨fun u => ?_, fun u => rfl, fun u u' => rfl⟩
  simp only [fibonacci_sphere, List.length_cons, List.length_map, List.length_range]
  omega

/-- Witness for C6 at `kernelSize = 3`. -/
theorem fibonacci_sphere_count_origin_deterministic_witness :
    1 ≤ 3 ∧
    ((∀ u : ℝ, (fibonacci_sphere 3 false u).length = 3) ∧
     (∀ u : ℝ, (fibonacci_sphere 3 false u).head? = some (0, 0, 0)) ∧
     (∀ u u' : ℝ, fibonacci_sphere 3 false u = fibonacci_sphere 3 false u')) :=
  ⟨by norm_num, fibonacci_sphere_count_origin_deterministic 3 (by norm_num)⟩

/-- C10: every generated point other than element 0 lies exactly on the unit
sphere in exact real arithmetic: `x² + y² + z² = r²(cos² + sin²) + y² = 1`,
using `x² + z² = r² = 1 - y²` (valid because `|y| ≤ 1`). -/
theorem fibonacci_sphere_unit_norm (s i : ℕ) (h1 : 1 ≤ i) (h2 : i < s)
    (b : Bool) (u : ℝ) :
    ((fibonacci_sphere s b u).getD i (0, 0, 0)).1 ^ 2 +
    ((fibonacci_sphere s b u).getD i (0, 0, 0)).2.1 ^ 2 +
    ((fibonacci_sphere s b u).getD i (0, 0, 0)).2.2 ^ 2 = 1 := by
  obtain ⟨j, rfl⟩ : ∃ j, i = j + 1 := ⟨i - 1, by omega⟩
  have hj : j < s - 1 := by omega
  have hgd : ∀ f : ℕ → ℝ × ℝ × ℝ,
      (((0,0,0) : ℝ × ℝ × ℝ) :: (List.range (s-1)).map f).getD (j+1) (0,0,0) = f j := by
    intro f
    rw [List.getD_cons_succ]
    have hlen : j < ((List.range (s-1)).map f).length := by
      simpa using hj
    rw [List.getD_eq_getElem _ _ hlen]
    simp
  simp only [fibonacci_sphere]
  rw [hgd]
  set y : ℝ := ((j : ℝ) * (2 / (s:ℕ)) - 1) + (2 / (s:ℕ)) / 2 with hy
  have hs0 : (0:ℝ) < (s:ℕ) := by
    have : 0 < s := by omega
    exact_mod_cast this
  have hjs : (j : ℝ) + 2 ≤ (s:ℕ) := by
    have : j + 2 ≤ s := by omega
    exact_mod_cast this
  have hyval : y = (2 * (j:ℝ) + 1) / (s:ℕ) - 1 := by
    rw [hy]; field_simp; ring
  have hfracpos : 0 < (2 * (j:ℝ) + 1) / (s:ℕ) := by positivity
  have hfracle : (2 * (j:ℝ) + 1) / (s:ℕ) ≤ 2 := by
    rw [div_le_iff hs0]; linarith
  have hysq : y ^ 2 ≤ 1 := by
    rw [hyval]; nlinarith
  have hr : Real.sqrt (1 - y ^ 2) ^ 2 = 1 - y ^ 2 :=
    Real.sq_sqrt (by linarith)
  set phi : ℝ := fmodReal ((j : ℝ) + (if b then u * (s:ℕ) else 1)) (s:ℕ) *
    (Real.pi * (3 - Real.sqrt 5)) with hphi
  calc (Real.cos phi * Real.sqrt (1 - y ^ 2)) ^ 2 + y ^ 2 +
        (Real.sin phi * Real.sqrt (1 - y ^ 2)) ^ 2
      = (Real.sin phi ^ 2 + Real.cos phi ^ 2) * Real.sqrt (1 - y ^ 2) ^ 2 + y ^ 2 := by
        ring
    _ = 1 := by rw [Real.sin_sq_add_cos_sq, one_mul, hr]; ring

/-- Witness for C10 at `samples = 3`, `i = 1`. -/
theorem fibonacci_sphere_unit_norm_witness :
    1 ≤ 1 ∧ 1 < 3 ∧
    (((fibonacci_sphere 3 false 0).getD 1 (0, 0, 0)).1 ^ 2 +
     ((fibonacci_sphere 3 false 0).getD 1 (0, 0, 0)).2.1 ^ 2 +
     ((fibonacci_sphere 3 false 0).getD 1 (0, 0, 0)).2.2 ^ 2 = 1) :=
  ⟨le_refl 1, by norm_num,
   fibonacci_sphere_unit_norm 3 1 (le_refl 1) (by norm_num) false 0⟩

/-! ## Properties of the top-k selection -/

lemma argmaxAux_cons_none {n : ℕ} (v : Fin n → ℝ) {i : Fin n} {is : List (Fin n)}
    (hrec : argmaxAux v is = none) : argmaxAux v (i :: is) = some i := by
  unfold argmaxAux
  rw [hrec]

lemma argmaxAux_cons_some {n : ℕ} (v : Fin n → ℝ) {i j : Fin n} {is : List (Fin n)}
    (hrec : argmaxAux v is = some j) :
    argmaxAux v (i :: is) = if v i < v j then some j else some i := by
  unfold argmaxAux
  rw [hrec]

lemma topkSelect_succ_none {n : ℕ} (v : Fin n → ℝ) {k : ℕ} {rem : List (Fin n)}
    (hrec : argmaxAux v rem = none) : topkSelect v (k + 1) rem = [] := by
  conv_lhs => unfold topkSelect
  rw [hrec]

lemma topkSelect_succ_some {n : ℕ} (v : Fin n → ℝ) {k : ℕ} {rem : List (Fin n)}
    {j : Fin n} (hrec : argmaxAux v rem = some j) :
    topkSelect v (k + 1) rem = j :: topkSelect v k (rem.erase j) := by
  conv_lhs => unfold topkSelect
  rw [hrec]

lemma argmaxAux_eq_none_iff {n : ℕ} (v : Fin n → ℝ) (l : List (Fin n)) :
    argmaxAux v l = none ↔ l = [] := by
  cases l with
  | nil => simp [argmaxAux]
  | cons i is =>
    constructor
    · intro h
      cases hrec : argmaxAux v is with
      | none => rw [argmaxAux_cons_none v hrec] at h; exact absurd h (by simp)
      | some j =>
        rw [argmaxAux_cons_some v hrec] at h
        split at h <;> simp_all
    · intro h; simp at h

lemma argmaxAux_mem {n : ℕ} (v : Fin n → ℝ) :
    ∀ (l : List (Fin n)) (j : Fin n), argmaxAux v l = some j → j ∈ l := by
  intro l
  induction l with
  | nil => intro j h; simp [argmaxAux] at h
  | cons i is ih =>
    intro j h
    cases hrec : argmaxAux v is with
    | none =>
      rw [argmaxAux_cons_none v hrec] at h
      simp only [Option.some.injEq] at h
      simp [← h]
    | some j' =>
      rw [argmaxAux_cons_some v hrec] at h
      split at h
      · simp only [Option.some.injEq] at h
        subst h
        exact List.mem_cons_of_mem i (ih j' hrec)
      · simp only [Option.some.injEq] at h
        simp [← h]

lemma argmaxAux_le {n : ℕ} (v : Fin n → ℝ) :
    ∀ (l : List (Fin n)) (j : Fin n), argmaxAux v l = some j →
    ∀ i ∈ l, v i ≤ v j := by
  intro l
  induction l with
  | nil => intro j h; simp [argmaxAux] at h
  | cons i is ih =>
    intro j h i' hi'
    cases hrec : argmaxAux v is with
    | none =>
      have hnil : is = [] := (argmaxAux_eq_none_iff v is).mp hrec
      rw [argmaxAux_cons_none v hrec] at h
      simp only [Option.some.injEq] at h
      subst h
      subst hnil
      rcases List.mem_cons.mp hi' with h1 | h1
      · rw [h1]
      · simp at h1
    | some j' =>
      rw [argmaxAux_cons_some v hrec] at h
      split at h
      · rename_i hlt
        simp only [Option.some.injEq] at h
        subst h
        rcases List.mem_cons.mp hi' with h1 | h1
        · rw [h1]; exact le_of_lt hlt
        · exact ih j' hrec i' h1
      · rename_i hlt
        push_neg at hlt
        simp only [Option.some.injEq] at h
        subst h
        rcases List.mem_cons.mp hi' with h1 | h1
        · rw [h1]
        · exact le_trans (ih j' hrec i' h1) hlt

/-- If one member strictly dominates every other member, `argmaxAux` picks it. -/
lemma argmaxAux_of_strict_max {n : ℕ} (v : Fin n → ℝ) (l : List (Fin n))
    (p : Fin n) (hp : p ∈ l) (hstrict : ∀ i ∈ l, i ≠ p → v i < v p) (j : Fin n)
    (h : argmaxAux v l = some j) : j = p := by
  by_contra hne
  have hj : j ∈ l := argmaxAux_mem v l j h
  have h1 : v j < v p := hstrict j hj hne
  have h2 : v p ≤ v j := argmaxAux_le v l j h p hp
  linarith

lemma topkSelect_subset {n : ℕ} (v : Fin n → ℝ) :
    ∀ (k : ℕ) (rem : List (Fin n)), ∀ i ∈ topkSelect v k rem, i ∈ rem := by
  intro k
  induction k with
  | zero => intro rem i hi; simp [topkSelect] at hi
  | succ k ih =>
    intro rem i hi
    cases hrec : argmaxAux v rem with
    | none => rw [topkSelect_succ_none v hrec] at hi; simp at hi
    | some j =>
      rw [topkSelect_succ_some v hrec] at hi
      rcases List.mem_cons.mp hi with h1 | h1
      · rw [h1]; exact argmaxAux_mem v rem j hrec
      · exact List.mem_of_mem_erase (ih (rem.erase j) i h1)

lemma topkSelect_length {n : ℕ} (v : Fin n → ℝ) :
    ∀ (k : ℕ) (rem : List (Fin n)), k ≤ rem.length →
    (topkSelect v k rem).length = k := by
  intro k
  induction k with
  | zero => intro rem _; simp [topkSelect]
  | succ k ih =>
    intro rem hk
    have hne : rem ≠ [] := by
      intro h; rw [h] at hk; simp at hk
    cases hrec : argmaxAux v rem with
    | none => exact absurd ((argmaxAux_eq_none_iff v rem).mp hrec) hne
    | some j =>
      have hjmem : j ∈ rem := argmaxAux_mem v rem j hrec
      have herase : (rem.erase j).length = rem.length - 1 :=
        List.length_erase_of_mem hjmem
      rw [topkSelect_succ_some v hrec, List.length_cons,
        ih (rem.erase j) (by omega)]

lemma topkSelect_nodup {n : ℕ} (v : Fin n → ℝ) :
    ∀ (k : ℕ) (rem : List (Fin n)), rem.Nodup → (topkSelect v k rem).Nodup := by
  intro k
  induction k with
  | zero => intro rem _; simp [topkSelect]
  | succ k ih =>
    intro rem hnd
    cases hrec : argmaxAux v rem with
    | none => rw [topkSelect_succ_none v hrec]; exact List.nodup_nil
    | some j =>
      rw [topkSelect_succ_some v hrec, List.nodup_cons]
      constructor
      · intro hmem
        have : j ∈ rem.erase j := topkSelect_subset v k (rem.erase j) j hmem
        exact ((List.Nodup.mem_erase_iff hnd).mp this).1 rfl
      · exact ih (rem.erase j) (hnd.erase j)

/-- The selected indices dominate every non-selected candidate. -/
lemma topkSelect_dominates {n : ℕ} (v : Fin n → ℝ) :
    ∀ (k : ℕ) (rem : List (Fin n)), ∀ i ∈ topkSelect v k rem,
    ∀ j ∈ rem, j ∉ topkSelect v k rem → v j ≤ v i := by
  intro k
  induction k with
  | zero => intro rem i hi; simp [topkSelect] at hi
  | succ k ih =>
    intro rem i hi j hj hjnot
    cases hrec : argmaxAux v rem with
    | none => rw [topkSelect_succ_none v hrec] at hi; simp at hi
    | some a =>
      rw [topkSelect_succ_some v hrec] at hi hjnot
      rcases List.mem_cons.mp hi with h1 | h1
      · rw [h1]
        exact argmaxAux_le v rem a hrec j hj
      · have hjne : j ≠ a := by
          intro h; exact hjnot (by rw [h]; exact List.mem_cons_self a _)
        have hjer : j ∈ rem.erase a := (List.mem_erase_of_ne hjne).mpr hj
        have hjnot2 : j ∉ topkSelect v k (rem.erase a) := by
          intro h; exact hjnot (List.mem_cons_of_mem a h)
        exact ih (rem.erase a) i h1 j hjer hjnot2

/-! ## Claim C5: knn returns the k nearest neighbors -/

lemma pairwiseDistance_eq_neg_sqDist {n : ℕ} (x : Fin n → Fin 3 → ℝ)
    (p q : Fin n) : pairwiseDistance x p q = -sqDist x p q := by
  simp only [pairwiseDistance, sqDist, sqNorm3, inner3, Fin.sum_univ_three]
  ring

/-- A concrete 2-point cloud with distinct points `(0,0,0)` and `(1,0,0)`,
used to instantiate the knn theorems. -/
def cloudTwo : Fin 2 → Fin 3 → ℝ :=
  fun p d => if p.val = 1 ∧ d.val = 0 then 1 else 0

/-- A concrete 2-point cloud whose two points coincide at the origin. -/
def cloudDup : Fin 1 → Fin 2 → Fin 3 → ℝ := fun _ _ _ => 0

/-- C5: for every cloud and every `k ≤ n`, `knn` returns, for each point `p`,
exactly `k` distinct indices, the selected indices realize the `k` smallest
squared Euclidean distances to `p` (ties resolved by the selection order of the
top-k routine), and the selection goes through the negated pairwise distance
matrix. -/
theorem knn_nearest_neighbors {n : ℕ} (x : Fin n → Fin 3 → ℝ) (k : ℕ)
    (hk : k ≤ n) (p : Fin n) :
    (knnList x k p).length = k ∧ (knnList x k p).Nodup ∧
    (∀ i ∈ knnList x k p, ∀ j : Fin n, j ∉ knnList x k p →
      sqDist x p i ≤ sqDist x p j) ∧
    (∀ q : Fin n, pairwiseDistance x p q = -sqDist x p q) := by
  refine ⟨?_, ?_, ?_, fun q => pairwiseDistance_eq_neg_sqDist x p q⟩
  · exact topkSelect_length _ k _ (by simpa using hk)
  · exact topkSelect_nodup _ k _ (List.nodup_finRange n)
  · intro i hi j hj
    have h := topkSelect_dominates (pairwiseDistance x p) k (List.finRange n) i hi
      j (List.mem_finRange j) hj
    rw [pairwiseDistance_eq_neg_sqDist, pairwiseDistance_eq_neg_sqDist] at h
    linarith

/-- Witness for C5 on `cloudTwo` with `k = 1`. -/
theorem knn_nearest_neighbors_witness :
    1 ≤ 2 ∧
    ((knnList cloudTwo 1 0).length = 1 ∧ (knnList cloudTwo 1 0).Nodup ∧
     (∀ i ∈ knnList cloudTwo 1 0, ∀ j : Fin 2, j ∉ knnList cloudTwo 1 0 →
       sqDist cloudTwo 0 i ≤ sqDist cloudTwo 0 j) ∧
     (∀ q : Fin 2, pairwiseDistance cloudTwo 0 q = -sqDist cloudTwo 0 q)) :=
  ⟨by norm_num, knn_nearest_neighbors cloudTwo 1 (by norm_num) 0⟩

/-! ## Claim C4: flattened neighbor indices and the self-neighbor property -/

lemma sqDist_self {n : ℕ} (x : Fin n → Fin 3 → ℝ) (p : Fin n) :
    sqDist x p p = 0 := by
  simp [sqDist]

lemma sqDist_pos {n : ℕ} (x : Fin n → Fin 3 → ℝ) (p q : Fin n)
    (hne : x p ≠ x q) : 0 < sqDist x p q := by
  have hnn : 0 ≤ sqDist x p q := Finset.sum_nonneg (fun d _ => sq_nonneg _)
  rcases lt_or_eq_of_le hnn with h | h
  · exact h
  · exfalso
    apply hne
    funext d
    have hall := (Finset.sum_eq_zero_iff_of_nonneg
      (fun d _ => sq_nonneg (x p d - x q d))).mp h.symm d (Finset.mem_univ d)
    have hz : x p d - x q d = 0 := by
      have := pow_eq_zero_iff (n := 2) (by norm_num) |>.mp hall
      exact this
    linarith

/-- C4 (amended): for every batch, every `1 ≤ k ≤ n`, the flattened neighbor
list of each point has exactly `k` entries, and — provided the points of the
batch item are pairwise distinct — its first entry is the point's own
flattened index `p + b * n`.  (With coincident points the tie at distance 0
can put another copy first; see the counterexample.) -/
theorem knn_flat_self_first {B n : ℕ} (x : Fin B → Fin n → Fin 3 → ℝ) (k : ℕ)
    (hk1 : 1 ≤ k) (hk2 : k ≤ n) (b : Fin B) (p : Fin n)
    (hinj : Function.Injective (x b)) :
    (flatSpiralsIndex x k b p).length = k ∧
    (flatSpiralsIndex x k b p).head? = some (p.val + b.val * n) := by
  have hlen : (knnList (x b) k p).length = k :=
    topkSelect_length _ k _ (by simpa using hk2)
  constructor
  · simpa [flatSpiralsIndex] using hlen
  · obtain ⟨k0, rfl⟩ : ∃ k0, k = k0 + 1 := ⟨k - 1, by omega⟩
    have hstrict : ∀ i ∈ List.finRange n, i ≠ p →
        pairwiseDistance (x b) p i < pairwiseDistance (x b) p p := by
      intro i _ hne
      rw [pairwiseDistance_eq_neg_sqDist, pairwiseDistance_eq_neg_sqDist,
        sqDist_self]
      have hpos : 0 < sqDist (x b) p i :=
        sqDist_pos (x b) p i (fun hcontra => hne (hinj hcontra).symm)
      linarith
    cases hrec : argmaxAux (pairwiseDistance (x b) p) (List.finRange n) with
    | none =>
      exfalso
      have hnil := (argmaxAux_eq_none_iff _ _).mp hrec
      have hlen0 := congrArg List.length hnil
      simp at hlen0
      omega
    | some j =>
      have hj : j = p := argmaxAux_of_strict_max _ _ p (List.mem_finRange p)
        hstrict j hrec
      subst hj
      unfold flatSpiralsIndex knnList
      rw [topkSelect_succ_some _ hrec]
      simp

lemma cloudTwo_injective : Function.Injective cloudTwo := by
  intro a b hab
  fin_cases a <;> fin_cases b <;> first
    | rfl
    | (exfalso
       have h0 := congrFun hab (0 : Fin 3)
       simp [cloudTwo] at h0)

/-- Witness for C4 (amended) on the distinct-point cloud `cloudTwo`. -/
theorem knn_flat_self_first_witness :
    1 ≤ 1 ∧ 1 ≤ 2 ∧
    ((flatSpiralsIndex (fun _ : Fin 1 => cloudTwo) 1 0 1).length = 1 ∧
     (flatSpiralsIndex (fun _ : Fin 1 => cloudTwo) 1 0 1).head? =
       some ((1 : Fin 2).val + (0 : Fin 1).val * 2)) :=
  ⟨le_refl 1, by norm_num,
   knn_flat_self_first (fun _ : Fin 1 => cloudTwo) 1 (le_refl 1) (by norm_num) 0 1
     cloudTwo_injective⟩

/-- C4 counterexample: on a cloud whose two points coincide at the origin,
the first flattened neighbor index of point 1 is 0, not the point's own
flattened index `1 + 0 * 2 = 1` — the claim fails as stated for arbitrary
point clouds. -/
theorem knn_flat_self_first_counterexample :
    (flatSpiralsIndex cloudDup 1 0 1).head? = some 0 ∧
    (0 : ℕ) ≠ (1 : Fin 2).val + (0 : Fin 1).val * 2 := by
  have hv : ∀ j : Fin 2, pairwiseDistance (cloudDup 0) 1 j = 0 := by
    intro j
    simp [pairwiseDistance, sqNorm3, inner3, cloudDup]
  have hnil : argmaxAux (pairwiseDistance (cloudDup 0) 1) ([] : List (Fin 2)) = none := rfl
  have h1 : argmaxAux (pairwiseDistance (cloudDup 0) 1) [(1 : Fin 2)] = some 1 :=
    argmaxAux_cons_none _ hnil
  have h2 : argmaxAux (pairwiseDistance (cloudDup 0) 1) [(0 : Fin 2), 1] = some 0 := by
    rw [argmaxAux_cons_some _ h1, hv 0, hv 1]
    simp
  have hfin : List.finRange 2 = [(0 : Fin 2), 1] := by decide
  have hknn : knnList (cloudDup 0) 1 (1 : Fin 2) = [(0 : Fin 2)] := by
    unfold knnList
    rw [hfin, topkSelect_succ_some _ h2]
    rfl
  constructor
  · have : flatSpiralsIndex cloudDup 1 0 1 =
        (knnList (cloudDup 0) 1 (1 : Fin 2)).map (fun i => i.val + (0 : Fin 1).val * 2) := rfl
    rw [this, hknn]
    rfl
  · decide

/-! ## Claims C1 and C3: structure of the assignment matrix -/

/-- A one-point cloud sitting at the origin. -/
def cloudOne : Fin 1 → Fin 3 → ℝ := fun _ _ => 0

lemma spirals_row0 {n : ℕ} (x : Fin n → Fin 3 → ℝ) (k : ℕ) (p : Fin n)
    (i : Fin k) (hi : i.val = 0) : spirals x k p i = centerPt x k p := by
  unfold spirals knnFun centerPt
  rw [hi]

lemma kernelPoint_zero (m : ℕ) : kernelPoint m 0 = (0, 0, 0) := rfl

/-- Row 0 of the raw affinity matrix is exactly the bias row: the relative
position of the first gathered neighbor is the zero vector. -/
lemma rawPermatrix_row0 {n : ℕ} (x : Fin n → Fin 3 → ℝ) (k m : ℕ) (p : Fin n)
    (i : Fin k) (hi : i.val = 0) (a : Fin m) :
    rawPermatrix x k m p i a = onePadding k m i a := by
  unfold rawPermatrix
  simp only [spirals_row0 x k p i hi, sub_self]
  simp [dotAnchor]

lemma clippedPermatrix_row0_col0 {n : ℕ} (x : Fin n → Fin 3 → ℝ) (k m : ℕ)
    (p : Fin n) (i : Fin k) (a : Fin m) (hi : i.val = 0) (ha : a.val = 0) :
    clippedPermatrix x k m p i a = 1 := by
  unfold clippedPermatrix
  rw [rawPermatrix_row0 x k m p i hi]
  norm_num [onePadding, hi, ha]

lemma clippedPermatrix_row0_ne {n : ℕ} (x : Fin n → Fin 3 → ℝ) (k m : ℕ)
    (p : Fin n) (i : Fin k) (a : Fin m) (hi : i.val = 0) (ha : a.val ≠ 0) :
    clippedPermatrix x k m p i a = 0 := by
  unfold clippedPermatrix
  rw [rawPermatrix_row0 x k m p i hi]
  simp [onePadding, ha]

/-- Column 0 below the bias entry vanishes: kernel anchor 0 is the origin,
so the projection of any relative position onto it is 0. -/
lemma clippedPermatrix_col0_ne {n : ℕ} (x : Fin n → Fin 3 → ℝ) (k m : ℕ)
    (p : Fin n) (i : Fin k) (a : Fin m) (hi : i.val ≠ 0) (ha : a.val = 0) :
    clippedPermatrix x k m p i a = 0 := by
  unfold clippedPermatrix rawPermatrix
  rw [ha, kernelPoint_zero]
  simp [dotAnchor, onePadding, hi]

lemma clippedPermatrix_col0_eq {n : ℕ} (x : Fin n → Fin 3 → ℝ) (k m : ℕ)
    (p : Fin n) (a : Fin m) (ha : a.val = 0) (i : Fin k) :
    clippedPermatrix x k m p i a = if i.val = 0 then 1 else 0 := by
  by_cases hi : i.val = 0
  · rw [clippedPermatrix_row0_col0 x k m p i a hi ha, if_pos hi]
  · rw [clippedPermatrix_col0_ne x k m p i a hi ha, if_neg hi]

lemma clipped_col0_sum {n : ℕ} (x : Fin n → Fin 3 → ℝ) (k m : ℕ) (hk : 0 < k)
    (p : Fin n) (a : Fin m) (ha : a.val = 0) :
    ∑ i, clippedPermatrix x k m p i a = 1 := by
  rw [Finset.sum_congr rfl (fun i _ => clippedPermatrix_col0_eq x k m p a ha i)]
  have h1 : ∀ i : Fin k, (if i.val = 0 then (1:ℝ) else 0) =
      if i = ⟨0, hk⟩ then 1 else 0 := by
    intro i
    by_cases h : i.val = 0
    · rw [if_pos h, if_pos (Fin.ext h)]
    · rw [if_neg h, if_neg (fun hc => h (by rw [hc]))]
  rw [Finset.sum_congr rfl (fun i _ => h1 i)]
  simp

/-- The self entry `(0,0)` of the final permatrix is exactly `selfWeight`. -/
lemma paiPermatrix_self_entry {n : ℕ} (x : Fin n → Fin 3 → ℝ) (k m : ℕ)
    (hk : 0 < k) (p : Fin n) (i : Fin k) (a : Fin m)
    (hi : i.val = 0) (ha : a.val = 0) :
    paiPermatrix x k m p i a = selfWeight := by
  have hsum := clipped_col0_sum x k m hk p a ha
  have hB : ∀ i' : Fin k, colNormalize (clippedPermatrix x k m p) i' a =
      if i'.val = 0 then 1 / (1 + eps) else 0 := by
    intro i'
    unfold colNormalize
    rw [hsum, clippedPermatrix_col0_eq x k m p a ha i']
    by_cases h : i'.val = 0
    · rw [if_pos h, if_pos h]
    · rw [if_neg h, if_neg h, zero_div]
  have hsq : ∀ i' : Fin k, colNormalize (clippedPermatrix x k m p) i' a *
      colNormalize (clippedPermatrix x k m p) i' a =
      if i'.val = 0 then (1 / (1 + eps)) * (1 / (1 + eps)) else 0 := by
    intro i'
    rw [hB i']
    by_cases h : i'.val = 0
    · rw [if_pos h, if_pos h]
    · rw [if_neg h, if_neg h, mul_zero]
  have hsum2 : ∑ i', colNormalize (clippedPermatrix x k m p) i' a *
      colNormalize (clippedPermatrix x k m p) i' a =
      (1 / (1 + eps)) * (1 / (1 + eps)) := by
    rw [Finset.sum_congr rfl (fun i' _ => hsq i')]
    have h1 : ∀ i' : Fin k, (if i'.val = 0 then (1 / (1 + eps)) * (1 / (1 + eps)) else 0) =
        if i' = ⟨0, hk⟩ then (1 / (1 + eps)) * (1 / (1 + eps)) else 0 := by
      intro i'
      by_cases h : i'.val = 0
      · rw [if_pos h, if_pos (Fin.ext h)]
      · rw [if_neg h, if_neg (fun hc => h (by rw [hc]))]
    rw [Finset.sum_congr rfl (fun i' _ => h1 i')]
    simp
  have hC : colNormalize (fun i' a' => colNormalize (clippedPermatrix x k m p) i' a' *
      colNormalize (clippedPermatrix x k m p) i' a') i a = selfWeight := by
    show (colNormalize (clippedPermatrix x k m p) i a *
        colNormalize (clippedPermatrix x k m p) i a) /
        ((∑ i', colNormalize (clippedPermatrix x k m p) i' a *
          colNormalize (clippedPermatrix x k m p) i' a) + eps) = selfWeight
    rw [hsum2, hsq i, if_pos hi]
    rfl
  have hthr : (1:ℝ) / 10 < selfWeight := by norm_num [selfWeight, eps]
  show (if 1 / 10 < colNormalize (fun i' a' =>
      colNormalize (clippedPermatrix x k m p) i' a' *
      colNormalize (clippedPermatrix x k m p) i' a') i a then
      colNormalize (fun i' a' => colNormalize (clippedPermatrix x k m p) i' a' *
      colNormalize (clippedPermatrix x k m p) i' a') i a else 0) = selfWeight
  rw [hC, if_pos hthr]

lemma paiPermatrix_row0_ne {n : ℕ} (x : Fin n → Fin 3 → ℝ) (k m : ℕ) (p : Fin n)
    (i : Fin k) (a : Fin m) (hi : i.val = 0) (ha : a.val ≠ 0) :
    paiPermatrix x k m p i a = 0 :=
  topkmax_of_zero _ i a (clippedPermatrix_row0_ne x k m p i a hi ha)

lemma paiPermatrix_col0_ne {n : ℕ} (x : Fin n → Fin 3 → ℝ) (k m : ℕ) (p : Fin n)
    (i : Fin k) (a : Fin m) (hi : i.val ≠ 0) (ha : a.val = 0) :
    paiPermatrix x k m p i a = 0 :=
  topkmax_of_zero _ i a (clippedPermatrix_col0_ne x k m p i a hi ha)

/-- C1 (amended): for every input cloud, the self entry `(0,0)` of every
point's permatrix equals `selfWeight = a²/(a²+ε)` with `a = 1/(1+ε)`,
`ε = 10⁻⁶` — strictly between `0.999` and `1`, not exactly `1` — and every
other entry of row 0 and of column 0 is exactly `0`. -/
theorem permatrix_self_routing {n : ℕ} (x : Fin n → Fin 3 → ℝ) (k m : ℕ)
    (hk : 0 < k) (p : Fin n) :
    (∀ (i : Fin k) (a : Fin m), i.val = 0 → a.val = 0 →
      paiPermatrix x k m p i a = selfWeight) ∧
    (999 / 1000 < selfWeight ∧ selfWeight < 1) ∧
    (∀ (i : Fin k) (a : Fin m), i.val = 0 → a.val ≠ 0 →
      paiPermatrix x k m p i a = 0) ∧
    (∀ (i : Fin k) (a : Fin m), i.val ≠ 0 → a.val = 0 →
      paiPermatrix x k m p i a = 0) := by
  refine ⟨fun i a hi ha => paiPermatrix_self_entry x k m hk p i a hi ha,
    ⟨by norm_num [selfWeight, eps], by norm_num [selfWeight, eps]⟩,
    fun i a hi ha => paiPermatrix_row0_ne x k m p i a hi ha,
    fun i a hi ha => paiPermatrix_col0_ne x k m p i a hi ha⟩

/-- Witness for C1 (amended) on the one-point cloud at the origin. -/
theorem permatrix_self_routing_witness :
    0 < 1 ∧ paiPermatrix cloudOne 1 1 0 0 0 = selfWeight :=
  ⟨Nat.one_pos,
   (permatrix_self_routing cloudOne 1 1 Nat.one_pos 0).1 0 0 rfl rfl⟩

/-- C1 counterexample: on the concrete one-point cloud with `k = m = 1`,
entry `(0,0)` of the permatrix is `selfWeight ≈ 0.999999`, not exactly `1`
as the claim states. -/
theorem permatrix_self_entry_not_one :
    paiPermatrix cloudOne 1 1 0 0 0 ≠ 1 := by
  rw [paiPermatrix_self_entry cloudOne 1 1 Nat.one_pos 0 0 0 rfl rfl]
  norm_num [selfWeight, eps]

/-- C3 (amended): normalization in `topkmax` runs over the neighbor axis, so
it is the COLUMNS of each point's permatrix (the per-anchor weight
distributions over the k neighbors), not its rows, that are normalized:
every column sum lies in `[0, 1]` (mass is lost only to the `+ε` floor and
the `0.1` pruning); rows need not sum to ≈1. -/
theorem permatrix_column_sums {n : ℕ} (x : Fin n → Fin 3 → ℝ) (k m : ℕ)
    (p : Fin n) (a : Fin m) :
    0 ≤ ∑ i, paiPermatrix x k m p i a ∧ ∑ i, paiPermatrix x k m p i a ≤ 1 :=
  ⟨Finset.sum_nonneg (fun i _ => topkmax_nonneg _ i a),
   topkmax_colsum_le_one _ a⟩

/-- C3 counterexample: on the concrete two-point cloud `cloudTwo` with
`k = 2`, `kernelSize = 1`, row 1 of point 0's permatrix sums to exactly `0`,
not approximately `1` — rows are not normalized (columns are). -/
theorem permatrix_row_sum_counterexample :
    ∑ a : Fin 1, paiPermatrix cloudTwo 2 1 0 1 a = 0 := by
  rw [Fin.sum_univ_one]
  exact paiPermatrix_col0_ne cloudTwo 2 1 0 1 0 (by decide) rfl

/-! ## Aggregation layer and network assembler (`PaiConv`, `PaiNet`) -/

/-- Parameters of an `nn.BatchNorm1d(c)` layer in inference form: the learned
affine pair and the stored statistics it normalizes with. -/
structure BNParams (c : ℕ) where
  gamma : Fin c → ℝ
  beta : Fin c → ℝ
  runMean : Fin c → ℝ
  runVar : Fin c → ℝ

/-- Batch norm applied to a per-channel vector (shape `(c,)`). -/
noncomputable def bnApply {c : ℕ} (bn : BNParams c) (v : Fin c → ℝ) : Fin c → ℝ :=
  fun i => bn.gamma i * ((v i - bn.runMean i) / Real.sqrt (bn.runVar i + bnEps)) + bn.beta i

/-- Batch norm applied channelwise to a `(c, numPoints)` feature map. -/
noncomputable def bn2Apply {c n : ℕ} (bn : BNParams c) (v : Fin c → Fin n → ℝ) :
    Fin c → Fin n → ℝ :=
  fun i p => bn.gamma i * ((v i p - bn.runMean i) / Real.sqrt (bn.runVar i + bnEps)) + bn.beta i

/-- The Gauss error function, `(2/√π)·∫₀ˣ exp(−t²) dt`. -/
noncomputable def erf (x : ℝ) : ℝ :=
  (2 / Real.sqrt Real.pi) * ∫ t in (0:ℝ)..x, Real.exp (-(t ^ 2))

/-- Exact GELU, `x · Φ(x)` with the standard normal CDF `Φ`, as in `F.gelu`. -/
noncomputable def gelu (x : ℝ) : ℝ := x * ((1 + erf (x / Real.sqrt 2)) / 2)

/-- `F.leaky_relu` with negative slope `s`. -/
noncomputable def leakyRelu (s x : ℝ) : ℝ := if x < 0 then s * x else x

/-- `torch.sigmoid`. -/
noncomputable def sigmoid (x : ℝ) : ℝ := 1 / (1 + Real.exp (-x))

/-- Parameters of `PaiConv(in_c, out_c, k, kernel_size)`: the
`nn.Linear(in_c*kernel_size, out_c)` weight is kept in its reshaped
`(out_c, in_c, kernel_size)` form (`weight o c a` is the coefficient the
flat layout stores at position `(o, c*kernel_size + a)`), plus bias and
batch norm. -/
structure PaiConvParams (inC outC m : ℕ) where
  weight : Fin outC → Fin inC → Fin m → ℝ
  bias : Fin outC → ℝ
  bn : BNParams outC

/-- `PaiConv.forward`: gather each point's `k` neighbor features via the
shared neighbor index, batch-multiply the `(channels, k)` block by the
`(k, kernelSize)` permatrix, flatten, apply the linear map, batch norm. -/
noncomputable def paiConvForward {n inC outC kk m : ℕ} (P : PaiConvParams inC outC m)
    (feature : Fin inC → Fin n → ℝ) (nbr : Fin n → Fin kk → Fin n)
    (perm : Fin n → Fin kk → Fin m → ℝ) : Fin outC → Fin n → ℝ :=
  let proj : Fin n → Fin inC → Fin m → ℝ :=
    fun p c a => ∑ j, feature c (nbr p j) * perm p j a
  bn2Apply P.bn (fun o p => (∑ c, ∑ a, P.weight o c a * proj p c a) + P.bias o)

/-- Parameters of `TemperatureNet` (constructed by `PaiIndexMatrix` but not
used by its primary forward path). -/
structure TempNetParams where
  convW : Fin 64 → Fin 3 → ℝ
  convB : Fin 64 → ℝ
  bn : BNParams 64
  linW : Fin 64 → ℝ
  linB : ℝ

/-- `TemperatureNet.forward` on a `(numPoints, 3)` input: pointwise conv,
batch norm, leaky relu (slope 0.2), max pool over points, linear head, and
the sigmoid rescaling `σ(·)·(0.1 − 1/T) + 1/T`. -/
noncomputable def tempNetForward {n : ℕ} (T : TempNetParams) (tempFactor : ℝ)
    (input : Fin (n + 1) → Fin 3 → ℝ) : ℝ :=
  let conv : Fin 64 → Fin (n + 1) → ℝ :=
    fun c p => (∑ d, T.convW c d * input p d) + T.convB c
  let act : Fin 64 → Fin (n + 1) → ℝ :=
    fun c p => leakyRelu (2 / 10) (bn2Apply T.bn conv c p)
  let pooled : Fin 64 → ℝ := fun c => Finset.univ.sup' Finset.univ_nonempty (act c)
  sigmoid ((∑ c, T.linW c * pooled c) + T.linB) * (1 / 10 - 1 / tempFactor)
    + 1 / tempFactor

/-- The mutable state of `PaiIndexMatrix` beyond its frozen buffers: the
configured temperature factor and the `TemperatureNet` it feeds.  The
`kernels` and `one_padding` buffers are `requires_grad=False` constants and
are baked into `paiPermatrix`. -/
structure PaiIndexParams where
  tempFactor : ℝ
  tempNet : TempNetParams

/-- `PaiIndexMatrix.forward` on one cloud (point-major): the neighbor index
(as a per-point function of the flat gather) and the per-point permatrix.
The temperature state `_P` is dead: the corresponding lines of the source
are commented out, so it is never read. -/
noncomputable def paiIndexMatrixForward {n : ℕ} (kk m : ℕ) (_P : PaiIndexParams)
    (x : Fin n → Fin 3 → ℝ) :
    (Fin n → Fin kk → Fin n) × (Fin n → Fin kk → Fin m → ℝ) :=
  (knnFun x kk, fun p => paiPermatrix x kk m p)

/-- Whether the module is in training or evaluation mode. -/
inductive NetMode where
  | train : NetMode
  | eval : NetMode

/-- `nn.Dropout(p)`: in training mode entry `i` is kept (scaled by
`1/(1-p)`) iff `mask i`, the per-call Bernoulli(1−p) draw; in eval mode the
layer is the identity. -/
noncomputable def dropoutApply {c : ℕ} (mode : NetMode) (p : ℝ)
    (mask : Fin c → Bool) (v : Fin c → ℝ) : Fin c → ℝ :=
  match mode with
  | .train => fun i => if mask i then v i / (1 - p) else 0
  | .eval => v

/-- An `nn.Linear(inF, outF)` layer with bias. -/
structure LinParams (inF outF : ℕ) where
  weight : Fin outF → Fin inF → ℝ
  bias : Fin outF → ℝ

/-- All learned state of `PaiNet` (embedding width `E`, class count `O`).
`conv5`'s `(E, 512)` Conv1d weight and `linear1`'s `(512, 2E)` bias-free
weight are kept split along the concatenation blocks they multiply
(64+64+128+256 = 512 channels from conv1..conv4; the max-pool and avg-pool
halves of the `2E` vector) — the same linear maps in blocked form. -/
structure PaiNetParams (E O : ℕ) where
  idx : PaiIndexParams
  conv1 : PaiConvParams 3 64 16
  conv2 : PaiConvParams 64 64 16
  conv3 : PaiConvParams 64 128 16
  conv4 : PaiConvParams 128 256 16
  conv5w1 : Fin E → Fin 64 → ℝ
  conv5w2 : Fin E → Fin 64 → ℝ
  conv5w3 : Fin E → Fin 128 → ℝ
  conv5w4 : Fin E → Fin 256 → ℝ
  bn5 : BNParams E
  lin1wMax : Fin 512 → Fin E → ℝ
  lin1wAvg : Fin 512 → Fin E → ℝ
  bn6 : BNParams 512
  dropoutP : ℝ
  lin2 : LinParams 512 256
  bn7 : BNParams 256
  lin3 : LinParams 256 O

/-- The layer stack of `PaiNet.forward` given a precomputed
`(NeighborIndex, AssignmentMatrix)` pair: the four stacked `PaiConv` layers
all consume the identical pair `(si, pm)`, then concatenation, `conv5`+`bn5`
with GELU, dual global pooling, and the fully-connected head with the two
dropout layers. -/
noncomputable def paiNetTrunk {n E O : ℕ} (kk : ℕ) (P : PaiNetParams E O)
    (si : Fin (n + 1) → Fin kk → Fin (n + 1))
    (pm : Fin (n + 1) → Fin kk → Fin 16 → ℝ)
    (x : Fin 3 → Fin (n + 1) → ℝ) : Fin 512 → ℝ :=
  let f1 : Fin 64 → Fin (n + 1) → ℝ := fun c p => gelu (paiConvForward P.conv1 x si pm c p)
  let f2 : Fin 64 → Fin (n + 1) → ℝ := fun c p => gelu (paiConvForward P.conv2 f1 si pm c p)
  let f3 : Fin 128 → Fin (n + 1) → ℝ := fun c p => gelu (paiConvForward P.conv3 f2 si pm c p)
  let f4 : Fin 256 → Fin (n + 1) → ℝ := fun c p => gelu (paiConvForward P.conv4 f3 si pm c p)
  let c5 : Fin E → Fin (n + 1) → ℝ := fun e p =>
    (∑ c, P.conv5w1 e c * f1 c p) + (∑ c, P.conv5w2 e c * f2 c p) +
    (∑ c, P.conv5w3 e c * f3 c p) + (∑ c, P.conv5w4 e c * f4 c p)
  let g5 : Fin E → Fin (n + 1) → ℝ := fun e p => gelu (bn2Apply P.bn5 c5 e p)
  let xmax : Fin E → ℝ := fun e => Finset.univ.sup' Finset.univ_nonempty (g5 e)
  let xavg : Fin E → ℝ := fun e => (∑ p, g5 e p) / ((n : ℝ) + 1)
  let l1 : Fin 512 → ℝ := fun o =>
    (∑ e, P.lin1wMax o e * xmax e) + (∑ e, P.lin1wAvg o e * xavg e)
  fun o => gelu (bnApply P.bn6 l1 o)

/-- The dropout head of `PaiNet.forward`, applied after the trunk. -/
noncomputable def paiNetLayers {n E O : ℕ} (kk : ℕ) (P : PaiNetParams E O)
    (mode : NetMode) (mask1 : Fin 512 → Bool) (mask2 : Fin 256 → Bool)
    (si : Fin (n + 1) → Fin kk → Fin (n + 1))
    (pm : Fin (n + 1) → Fin kk → Fin 16 → ℝ)
    (x : Fin 3 → Fin (n + 1) → ℝ) : Fin O → ℝ :=
  let d1 : Fin 512 → ℝ := dropoutApply mode P.dropoutP mask1 (paiNetTrunk kk P si pm x)
  let l2 : Fin 256 → ℝ := fun o => (∑ i, P.lin2.weight o i * d1 i) + P.lin2.bias o
  let h2 : Fin 256 → ℝ := fun o => gelu (bnApply P.bn7 l2 o)
  let d2 : Fin 256 → ℝ := dropoutApply mode P.dropoutP mask2 h2
  fun o => (∑ i, P.lin3.weight o i * d2 i) + P.lin3.bias o

/-- `PaiNet.forward` on a `(3, numPoints)` input: the indexing submodule is
invoked exactly once, on the raw coordinates, and its output pair is handed
to the layer stack. -/
noncomputable def paiNetForward {n E O : ℕ} (kk : ℕ) (P : PaiNetParams E O)
    (mode : NetMode) (mask1 : Fin 512 → Bool) (mask2 : Fin 256 → Bool)
    (x : Fin 3 → Fin (n + 1) → ℝ) : Fin O → ℝ :=
  let sp := paiIndexMatrixForward kk 16 P.idx (fun p d => x d p)
  paiNetLayers kk P mode mask1 mask2 sp.1 sp.2 x

/-! ## Claim C7: the index/assignment pair is computed once and shared -/

/-- C7: in one `PaiNet.forward` call, the neighbor index and the assignment
matrix are produced exactly once, from the raw input coordinates, by the
indexing submodule (`knn` + permatrix builder), and that identical pair is
the one consumed by all four stacked `PaiConv` layers of the stack
(`paiNetLayers` passes the same `si, pm` to conv1..conv4; the layers are
pure functions and cannot modify it). -/
theorem painet_shares_index_pair {n E O : ℕ} (kk : ℕ) (P : PaiNetParams E O)
    (mode : NetMode) (mask1 : Fin 512 → Bool) (mask2 : Fin 256 → Bool)
    (x : Fin 3 → Fin (n + 1) → ℝ) :
    ∃ si pm, (si, pm) = paiIndexMatrixForward kk 16 P.idx (fun p d => x d p) ∧
      si = knnFun (fun p d => x d p) kk ∧
      pm = (fun p => paiPermatrix (fun p d => x d p) kk 16 p) ∧
      paiNetForward kk P mode mask1 mask2 x =
        paiNetLayers kk P mode mask1 mask2 si pm x :=
  ⟨_, _, rfl, rfl, rfl, rfl⟩

/-! ## Claim C8: two-run determinism -/

/-- C8 (amended): in evaluation mode the dropout layers are the identity, so
the logits do not depend on the per-run dropout randomness at all — any two
runs of `PaiNet.forward` on the same input with the same parameters produce
identical logits, whatever masks the runs drew.  In training mode this
fails; see the counterexample. -/
theorem painet_eval_deterministic {n E O : ℕ} (kk : ℕ) (P : PaiNetParams E O)
    (mask1 mask1' : Fin 512 → Bool) (mask2 mask2' : Fin 256 → Bool)
    (x : Fin 3 → Fin (n + 1) → ℝ) :
    paiNetForward kk P .eval mask1 mask2 x =
    paiNetForward kk P .eval mask1' mask2' x := rfl

/-- All-zero batch-norm parameters. -/
def zeroBN (c : ℕ) : BNParams c := ⟨fun _ => 0, fun _ => 0, fun _ => 0, fun _ => 0⟩

/-- Batch norm with zero scale and unit shift: constant output 1. -/
def oneBN (c : ℕ) : BNParams c := ⟨fun _ => 0, fun _ => 1, fun _ => 0, fun _ => 0⟩

/-- An all-zero `PaiConv` layer. -/
def zeroPaiConv (inC outC m : ℕ) : PaiConvParams inC outC m :=
  ⟨fun _ _ _ => 0, fun _ => 0, zeroBN outC⟩

/-- A concrete `PaiNet` parameter assignment (embedding width 1, one class):
zero everywhere except `bn7` (zero scale, unit shift), the all-ones `linear3`
weight, and dropout probability `1/2`. -/
noncomputable def cexParams : PaiNetParams 1 1 where
  idx := ⟨1, ⟨fun _ _ => 0, fun _ => 0, zeroBN 64, fun _ => 0, 0⟩⟩
  conv1 := zeroPaiConv 3 64 16
  conv2 := zeroPaiConv 64 64 16
  conv3 := zeroPaiConv 64 128 16
  conv4 := zeroPaiConv 128 256 16
  conv5w1 := fun _ _ => 0
  conv5w2 := fun _ _ => 0
  conv5w3 := fun _ _ => 0
  conv5w4 := fun _ _ => 0
  bn5 := zeroBN 1
  lin1wMax := fun _ _ => 0
  lin1wAvg := fun _ _ => 0
  bn6 := zeroBN 512
  dropoutP := 1 / 2
  lin2 := ⟨fun _ _ => 0, fun _ => 0⟩
  bn7 := oneBN 256
  lin3 := ⟨fun _ _ => 1, fun _ => 0⟩

lemma bnApply_oneBN (c : ℕ) (v : Fin c → ℝ) : bnApply (oneBN c) v = fun _ => 1 := by
  funext i
  simp [bnApply, oneBN]

lemma erf_nonneg_of_nonneg {x : ℝ} (hx : 0 ≤ x) : 0 ≤ erf x := by
  unfold erf
  apply mul_nonneg
  · exact div_nonneg (by norm_num) (Real.sqrt_nonneg _)
  · exact intervalIntegral.integral_nonneg hx (fun u _ => (Real.exp_pos _).le)

lemma gelu_one_pos : 0 < gelu 1 := by
  unfold gelu
  have h1 : 0 ≤ erf (1 / Real.sqrt 2) :=
    erf_nonneg_of_nonneg (by positivity)
  nlinarith

set_option maxRecDepth 4000 in
lemma painet_cex_key (mask2 : Fin 256 → Bool) :
    paiNetForward (n := 0) 1 cexParams .train (fun _ => true) mask2
      (fun _ _ => 0) 0 =
    ∑ i : Fin 256, (if mask2 i then gelu 1 / (1 - 1 / 2) else 0) := by
  have e1 : cexParams.bn7 = oneBN 256 := rfl
  have e2 : cexParams.dropoutP = 1 / 2 := rfl
  have e3 : cexParams.lin3.weight = (fun _ _ => (1:ℝ)) := rfl
  have e4 : cexParams.lin3.bias = (fun _ => (0:ℝ)) := rfl
  simp only [paiNetForward, paiNetLayers, dropoutApply, e1, e2, e3, e4,
    bnApply_oneBN, one_mul, add_zero]

set_option maxRecDepth 4000 in
/-- C8 counterexample: with dropout probability `1/2` and the module in
training mode, two forward runs on the identical one-point cloud with
identical parameters, whose second dropout layers drew different Bernoulli
masks (all-kept vs all-dropped — both draws have positive probability),
produce different logits: `512·gelu(1) ≠ 0`. -/
theorem painet_two_runs_differ :
    paiNetForward (n := 0) 1 cexParams .train (fun _ => true) (fun _ => true)
      (fun _ _ => 0) ≠
    paiNetForward (n := 0) 1 cexParams .train (fun _ => true) (fun _ => false)
      (fun _ _ => 0) := by
  intro hEq
  have h0 := congrFun hEq 0
  rw [painet_cex_key (fun _ => true), painet_cex_key (fun _ => false)] at h0
  have hA : (∑ i : Fin 256, (if (fun _ : Fin 256 => true) i then gelu 1 / (1 - 1 / 2) else 0) : ℝ) =
      256 * (gelu 1 / (1 - 1 / 2)) := by
    simp [Finset.sum_const, Finset.card_univ]
  have hB : (∑ i : Fin 256, (if (fun _ : Fin 256 => false) i then gelu 1 / (1 - 1 / 2) else 0) : ℝ) = 0 := by
    simp
  rw [hA, hB] at h0
  have hpos : (0:ℝ) < gelu 1 / (1 - 1 / 2) := div_pos gelu_one_pos (by norm_num)
  have : (0:ℝ) < 256 * (gelu 1 / (1 - 1 / 2)) := by positivity
  linarith

/-! ## Claim C9: noninterference of the temperature factor -/

/-- C9: the temperature factor and the `TemperatureNet` parameters it feeds
are never read on the primary forward path — two instances that agree on
everything else produce the identical neighbor index, assignment matrix, and
logits, for every input. -/
theorem temperature_noninterference {n n' E O : ℕ} (kk m : ℕ)
    (P : PaiNetParams E O) (t t' : ℝ) (tn tn' : TempNetParams)
    (mode : NetMode) (mask1 : Fin 512 → Bool) (mask2 : Fin 256 → Bool)
    (x : Fin 3 → Fin (n + 1) → ℝ) (y : Fin n' → Fin 3 → ℝ) :
    paiIndexMatrixForward kk m ⟨t, tn⟩ y = paiIndexMatrixForward kk m ⟨t', tn'⟩ y ∧
    paiNetForward kk { P with idx := ⟨t, tn⟩ } mode mask1 mask2 x =
      paiNetForward kk { P with idx := ⟨t', tn'⟩ } mode mask1 mask2 x :=
  ⟨rfl, rfl⟩

end PaiModel
